import Mathlib

/-
Shallow embedding of the e-graph implementation (files union_find.py and
e_graph.py of the repository) and proofs about the claims of the spec.

Modelling conventions:
* Python dictionaries are association lists (List (key × value)); assignment
  replaces the first matching entry in place or appends a fresh one at the
  end, matching the insertion-order semantics of Python dicts.
* Python sets are insertion-ordered duplicate-free lists; set.add appends
  when the element is absent, set.pop removes the head.
* UnionFind.find is recursive and diverges on a cyclic parent map (in Python
  it would exhaust the stack), so it is embedded with explicit fuel; every
  graph-level call passes fuel (number of entries + 1), which is shown to be
  sufficient whenever the parent map has no cycle (Terminates below).
* Python exceptions are modelled by the Res type: a KeyError carries the
  state at the moment of the raise, because the mutations performed before
  the raise persist in Python.  Fuel exhaustion becomes Res.timeout.
* E_GRAPH.__init__ also creates a field `parents` that no method ever reads
  or writes afterwards, and E_CLASS.__init__ a field `analysis_data` that is
  always None; both are omitted.  The repr/pretty-print methods and the
  unused local `parents_to_update` of repair (written, never read) are not
  modelled.  The file e-graph.py is an unused older variant not imported by
  the package and is not part of the embedding.
-/

/-! ## Association-list maps (Python dict / set) -/

def assocLookup {α β : Type} [DecidableEq α] : List (α × β) → α → Option β
  | [], _ => none
  | (k, v) :: rest, x => if k = x then some v else assocLookup rest x

def assocInsert {α β : Type} [DecidableEq α] : List (α × β) → α → β → List (α × β)
  | [], k, v => [(k, v)]
  | (k', v') :: rest, k, v =>
    if k' = k then (k, v) :: rest else (k', v') :: assocInsert rest k v

def assocErase {α β : Type} [DecidableEq α] : List (α × β) → α → List (α × β)
  | [], _ => []
  | (k', v') :: rest, k => if k' = k then rest else (k', v') :: assocErase rest k

theorem assocLookup_insert {α β : Type} [DecidableEq α] :
    ∀ (m : List (α × β)) (k : α) (v : β) (c : α),
      assocLookup (assocInsert m k v) c = if c = k then some v else assocLookup m c
  | [], k, v, c => by
    by_cases h : c = k
    · subst h; simp [assocInsert, assocLookup]
    · have h2 : ¬ k = c := fun hh => h hh.symm
      simp [assocInsert, assocLookup, h, h2]
  | (k', v') :: rest, k, v, c => by
    by_cases hk : k' = k
    · subst hk
      by_cases hc : c = k'
      · subst hc; simp [assocInsert, assocLookup]
      · have h2 : ¬ k' = c := fun hh => hc hh.symm
        simp [assocInsert, assocLookup, hc, h2]
    · by_cases hc : k' = c
      · have hck : ¬ c = k := fun hh => hk (hc.trans hh)
        simp [assocInsert, assocLookup, hk, hc, hck]
      · simp [assocInsert, assocLookup, hk, hc, assocLookup_insert rest k v c]

theorem assocLookup_insert_self {α β : Type} [DecidableEq α] (m : List (α × β)) (k : α)
    (v : β) : assocLookup (assocInsert m k v) k = some v := by
  simp [assocLookup_insert]

theorem assocLookup_insert_ne {α β : Type} [DecidableEq α] (m : List (α × β)) (k : α) (v : β)
    (c : α) (h : c ≠ k) : assocLookup (assocInsert m k v) c = assocLookup m c := by
  simp [assocLookup_insert, h]

/-! ## union_find.py -/

/-- The parent map of UnionFind: Python attribute `self.parent`. -/
abbrev UF := List (Nat × Nat)

/-- UnionFind.find, with explicit fuel.  The Python method
`find(x)` lazily registers an unseen `x` as its own parent, follows parent
links recursively, and compresses the path on the way back up.  The
recursion happens on the current map; the write `parent[x] = find(parent[x])`
is performed after the recursive call returns. -/
def findFuel : Nat → UF → Nat → Option (Nat × UF)
  | 0, _, _ => none
  | fuel + 1, uf, x =>
    match assocLookup uf x with
    | none => some (x, assocInsert uf x x)
    | some y =>
      if y = x then some (x, uf)
      else
        match findFuel fuel uf y with
        | none => none
        | some (r, uf1) => some (r, assocInsert uf1 x r)

/-- UnionFind.union: find both roots, and if distinct link the second
argument's root under the first argument's root. -/
def unionUF (uf : UF) (x y : Nat) : Option UF :=
  match findFuel (uf.length + 1) uf x with
  | none => none
  | some (xr, uf1) =>
    match findFuel (uf1.length + 1) uf1 y with
    | none => none
    | some (yr, uf2) => some (if xr = yr then uf2 else assocInsert uf2 yr xr)

/-! ## e_graph.py: data model -/

/-- The `value` attribute of an E_NODE: a string or a numeric literal
(Python Union[str, int, float]; the repository only ever uses str and int). -/
inductive Value where
  | str (s : String)
  | int (n : Int)
deriving DecidableEq

/-- E_NODE: a function symbol together with the list of child e-class ids.
Structural equality (__eq__/__hash__) is equality of value and children. -/
structure E_NODE where
  value : Value
  children : List Nat
deriving DecidableEq

/-- E_CLASS: identifier, member nodes, parent nodes.  The always-None
`analysis_data` slot is omitted. -/
structure E_CLASS where
  id : Nat
  nodes : List E_NODE
  parents : List E_NODE
deriving DecidableEq

/-- E_GRAPH state: classes, union-find parent map, hashcons, id counter,
worklist. -/
structure EGraph where
  classes : List (Nat × E_CLASS)
  uf : UF
  hashcons : List (E_NODE × Nat)
  next_id : Nat
  worklist : List Nat
deriving DecidableEq

/-- E_GRAPH.__init__ (the initial empty graph). -/
def initGraph : EGraph := ⟨[], [], [], 0, []⟩

/-- Outcome of an operation: normal return, a raised KeyError (carrying the
mutated state at the moment of the raise), or fuel exhaustion (standing for
the unbounded recursion of find on a cyclic parent map). -/
inductive Res (α : Type) where
  | ok (a : α) (s : EGraph)
  | keyError (s : EGraph)
  | timeout (s : EGraph)

def Res.isKeyError {α : Type} : Res α → Bool
  | .keyError _ => true
  | _ => false

def Res.isOkB {α : Type} : Res α → Bool
  | .ok _ _ => true
  | _ => false

def Res.okState {α : Type} : Res α → Option EGraph
  | .ok _ s => some s
  | _ => none

def Res.errState {α : Type} : Res α → Option EGraph
  | .keyError s => some s
  | _ => none

def Res.bind {α β : Type} : Res α → (α → EGraph → Res β) → Res β
  | .ok a s, f => f a s
  | .keyError s, _ => .keyError s
  | .timeout s, _ => .timeout s

/-! ## e_graph.py: operations -/

/-- One graph-level call of self.union_find.find. -/
def ufFind (s : EGraph) (x : Nat) : Option (Nat × UF) :=
  findFuel (s.uf.length + 1) s.uf x

/-- The list comprehension of E_GRAPH.canonicalize: find on every child in
order, threading the union-find state. -/
def canonChildren : UF → List Nat → Option (List Nat × UF)
  | uf, [] => some ([], uf)
  | uf, c :: rest =>
    match findFuel (uf.length + 1) uf c with
    | none => none
    | some (r, uf1) =>
      match canonChildren uf1 rest with
      | none => none
      | some (rs, uf2) => some (r :: rs, uf2)

/-- E_GRAPH.canonicalize: a new node with each child replaced by its find. -/
def canonicalize (s : EGraph) (n : E_NODE) : Option (E_NODE × UF) :=
  (canonChildren s.uf n.children).map fun p => (⟨n.value, p.1⟩, p.2)

/-- E_GRAPH.get_eclass: plain dict .get, None when absent. -/
def get_eclass (s : EGraph) (id : Nat) : Option E_CLASS :=
  assocLookup s.classes id

/-- Step 4 of E_GRAPH.add_node: for each (canonical) child id, add the
original node to that child class's parent set; a missing child raises
KeyError with all earlier mutations kept. -/
def addParents (ret : Nat) (orig : E_NODE) : EGraph → List Nat → Res Nat
  | s, [] => .ok ret s
  | s, c :: rest =>
    match assocLookup s.classes c with
    | none => .keyError s
    | some cl =>
      addParents ret orig
        ({s with classes := assocInsert s.classes c ({cl with parents :=
          if orig ∈ cl.parents then cl.parents else cl.parents ++ [orig]})}) rest

/-- E_GRAPH.add_node: canonicalize, hashcons lookup, else mint a fresh id,
register it in the union-find, create the singleton class, intern the
canonical node, then update the children's parent sets. -/
def add_node (s : EGraph) (enode : E_NODE) : Res Nat :=
  match canonicalize s enode with
  | none => .timeout s
  | some (cn, uf1) =>
    let s1 := {s with uf := uf1}
    match assocLookup s1.hashcons cn with
    | some id => .ok id s1
    | none =>
      let new_id := s1.next_id + 1
      let s2 := {s1 with next_id := new_id, uf := assocInsert s1.uf new_id new_id}
      let s3 := {s2 with
        classes := assocInsert s2.classes new_id ⟨new_id, [cn], []⟩,
        hashcons := assocInsert s2.hashcons cn new_id}
      addParents new_id enode s3 cn.children

/-- Python set union s1 | s2, modelled with the order: elements of the first
set, then the new elements of the second. -/
def unionNodes (a b : List E_NODE) : List E_NODE :=
  a ++ b.filter (fun n => !(decide (n ∈ a)))

/-- E_GRAPH.merge: no-op when the two roots coincide; otherwise union the
roots, and replace the class stored at the merged id by a fresh class whose
node set is the union of the two old node sets and whose parent set is
empty (E_CLASS.__init__ always starts with an empty parent set), then
schedule the merged id on the worklist. -/
def merge (s : EGraph) (a b : Nat) : Res Unit :=
  match ufFind s a with
  | none => .timeout s
  | some (a_root, uf1) =>
    match findFuel (uf1.length + 1) uf1 b with
    | none => .timeout {s with uf := uf1}
    | some (b_root, uf2) =>
      let s2 := {s with uf := uf2}
      if a_root = b_root then .ok () s2
      else
        match unionUF uf2 a_root b_root with
        | none => .timeout s2
        | some uf3 =>
          match findFuel (uf3.length + 1) uf3 a_root with
          | none => .timeout {s2 with uf := uf3}
          | some (merged_id, uf4) =>
            let s4 := {s2 with uf := uf4}
            match assocLookup s4.classes a_root with
            | none => .keyError s4
            | some clA =>
              match assocLookup s4.classes b_root with
              | none => .keyError s4
              | some clB =>
                .ok () {s4 with
                  classes := assocInsert s4.classes merged_id
                    ⟨merged_id, unionNodes clA.nodes clB.nodes, []⟩,
                  worklist :=
                    if merged_id ∈ s4.worklist then s4.worklist
                    else s4.worklist ++ [merged_id]}

/-- First loop of E_GRAPH.repair: for each recorded parent node,
canonicalize it, read hashcons[enode] (KeyError when absent: the read
happens before the membership test of the following if), delete the old
entry, and reinsert the canonical node mapped to the find of the old
target. -/
def repairPass1 : EGraph → List E_NODE → Res Unit
  | s, [] => .ok () s
  | s, enode :: rest =>
    match canonicalize s enode with
    | none => .timeout s
    | some (cn, uf1) =>
      let s1 := {s with uf := uf1}
      match assocLookup s1.hashcons enode with
      | none => .keyError s1
      | some current_eclass =>
        let s2 := {s1 with hashcons := assocErase s1.hashcons enode}
        match ufFind s2 current_eclass with
        | none => .timeout s2
        | some (r, uf2) =>
          repairPass1 ({s2 with uf := uf2, hashcons := assocInsert s2.hashcons cn r}) rest

/-- Second loop of E_GRAPH.repair: walk the recorded parents again with a
fresh dict new_parents; when the canonicalized node is already a key, merge
the two classes; then read new_parents[key_original] unconditionally (the
original, pre-canonicalization node is the lookup key) and store the find
of that value under the canonical node. -/
def repairPass2 (new_parents : List (E_NODE × Nat)) :
    EGraph → List E_NODE → Res (List (E_NODE × Nat))
  | s, [] => .ok new_parents s
  | s, key_original :: rest =>
    match canonicalize s key_original with
    | none => .timeout s
    | some (cn, uf1) =>
      let s1 := {s with uf := uf1}
      let afterIf : Res Unit :=
        match assocLookup new_parents cn with
        | none => .ok () s1
        | some _ =>
          match assocLookup new_parents key_original with
          | none => .keyError s1
          | some existing_eclass =>
            match assocLookup s1.hashcons cn with
            | none => .keyError s1
            | some current_eclass => merge s1 existing_eclass current_eclass
      match afterIf with
      | .keyError s' => .keyError s'
      | .timeout s' => .timeout s'
      | .ok _ s2 =>
        match assocLookup new_parents key_original with
        | none => .keyError s2
        | some existing2 =>
          match ufFind s2 existing2 with
          | none => .timeout s2
          | some (r, uf2) =>
            repairPass2 (assocInsert new_parents cn r) ({s2 with uf := uf2}) rest

/-- E_GRAPH.repair: both passes over classes[eclass].parents, then replace
the class's parent set with the keys of new_parents. -/
def repair (s : EGraph) (eclass : Nat) : Res Unit :=
  match assocLookup s.classes eclass with
  | none => .keyError s
  | some cl =>
    match repairPass1 s cl.parents with
    | .keyError s' => .keyError s'
    | .timeout s' => .timeout s'
    | .ok _ s1 =>
      match repairPass2 [] s1 cl.parents with
      | .keyError s' => .keyError s'
      | .timeout s' => .timeout s'
      | .ok new_parents s2 =>
        match assocLookup s2.classes eclass with
        | none => .keyError s2
        | some cl2 =>
          let cl3 : E_CLASS := {cl2 with parents := new_parents.map Prod.fst}
          .ok () {s2 with classes := assocInsert s2.classes eclass cl3}

/-- The while-loop of E_GRAPH.rebuild, with fuel: pop one worklist entry,
canonicalize it, repair it. -/
def rebuildFuel : Nat → EGraph → Res Unit
  | 0, s =>
    match s.worklist with
    | [] => .ok () s
    | _ :: _ => .timeout s
  | fuel + 1, s =>
    match s.worklist with
    | [] => .ok () s
    | id :: rest =>
      let s1 := {s with worklist := rest}
      match ufFind s1 id with
      | none => .timeout s1
      | some (eclass_id, uf1) =>
        match repair ({s1 with uf := uf1}) eclass_id with
        | .keyError s' => .keyError s'
        | .timeout s' => .timeout s'
        | .ok _ s2 => rebuildFuel fuel s2

/-- E_GRAPH.rebuild.  The worklist length is sufficient fuel: a successful
repair never enqueues anything (its merging branch always raises first). -/
def rebuild (s : EGraph) : Res Unit :=
  rebuildFuel s.worklist.length s

/-! ## Concrete build sequence: Scenario B of the spec -/

/-- Shorthand for a string-symbol node. -/
def eS (v : String) (cs : List Nat) : E_NODE := ⟨.str v, cs⟩

/-- Shorthand for an int-symbol node. -/
def eI (n : Int) (cs : List Nat) : E_NODE := ⟨.int n, cs⟩

/-- Scenario B of the spec: build the two division terms, merge the
multiply and shift classes (merge(idmul1, idshift)), rebuild, and return
(iddiv1, iddiv2). -/
def scenarioB : Res (Nat × Nat) :=
  (add_node initGraph (eS "a" [])).bind fun ida s =>
  (add_node s (eI 2 [])).bind fun id2 s =>
  (add_node s (eS "*" [ida, id2])).bind fun idmul1 s =>
  (add_node s (eS "/" [idmul1, id2])).bind fun iddiv1 s =>
  (add_node s (eS "a" [])).bind fun ida2 s =>
  (add_node s (eI 1 [])).bind fun id1 s =>
  (add_node s (eI 2 [])).bind fun id22 s =>
  (add_node s (eS "<<" [ida2, id1])).bind fun idshift s =>
  (add_node s (eS "/" [idshift, id22])).bind fun iddiv2 s =>
  (merge s idmul1 idshift).bind fun _ s =>
  (rebuild s).bind fun _ s =>
  .ok (iddiv1, iddiv2) s

/-- The pair (iddiv1, iddiv2) returned by Scenario B, when it completed. -/
def scenarioBids : Option (Nat × Nat) :=
  match scenarioB with
  | .ok p _ => some p
  | _ => none

/-- find on the final state of Scenario B. -/
def scenarioBfind (x : Nat) : Option Nat :=
  match scenarioB with
  | .ok _ s => (ufFind s x).map Prod.fst
  | _ => none

/-- classes lookup on the final state of Scenario B. -/
def scenarioBclass (i : Nat) : Option E_CLASS :=
  match scenarioB with
  | .ok _ s => assocLookup s.classes i
  | _ => none

/-- hashcons lookup on the final state of Scenario B. -/
def scenarioBhash (n : E_NODE) : Option Nat :=
  match scenarioB with
  | .ok _ s => assocLookup s.hashcons n
  | _ => none

/-- C1.  Evaluation of the code at the failing input (Scenario B of the
spec): iddiv1 = 4 and iddiv2 = 7 are the two division nodes whose children
have been made equivalent by merge(idmul1, idshift) = merge(3, 6); after
rebuild() returns, find(4) = 4 and find(7) = 7 are still distinct, so the
congruence-closure property claimed by the spec does not hold: merge
replaced the class stored at the merged id by a class with an empty parent
set, so repair had nothing to do and the two congruent division nodes were
never merged. -/
theorem c1_congruence_failure_eval :
    scenarioBids = some (4, 7) ∧ scenarioBfind 4 = some 4 ∧ scenarioBfind 7 = some 7 ∧
      (4 : Nat) ≠ 7 :=
  ⟨rfl, rfl, rfl, by decide⟩

/-- C2.  Evaluation of the code at the failing input (Scenario B): after the
completed rebuild(), class 3 is canonical (find(3) = 3) and the graph
contains the node "/"(3, 2) — a member of class 4 — which references class 3
as a child, yet the parent set stored on class 3 is empty: merge discarded
both former parent sets when it built the merged class, and repair never
reconciled them, so parent soundness fails. -/
theorem c2_parent_soundness_failure_eval :
    (scenarioBclass 3).map E_CLASS.parents = some [] ∧
      (scenarioBclass 4).map E_CLASS.nodes = some [eS "/" [3, 2]] ∧
      scenarioBfind 3 = some 3 ∧ (3 : Nat) ∈ (eS "/" [3, 2]).children :=
  ⟨rfl, rfl, rfl, by decide⟩

/-- C4.  Evaluation of the code at the failing input (Scenario B): after the
completed rebuild(), the hashcons still contains the key "/"(6, 2) even
though find(6) = 3 ≠ 6, i.e. a key whose child 6 is not a fixed point of
find; repair never replaced the stale key because the merged class's parent
set was empty. -/
theorem c4_stale_hashcons_key_eval :
    scenarioBhash (eS "/" [6, 2]) = some 7 ∧ scenarioBfind 6 = some 3 ∧
      (6 : Nat) ∈ (eS "/" [6, 2]).children ∧ (3 : Nat) ≠ 6 :=
  ⟨rfl, rfl, by decide, by decide⟩

/-! ## Claim C8: idempotence of find -/

/-- The value returned by a successful find is a fixed point of the parent
map in the state find leaves behind. -/
theorem findFuel_root_fixed :
    ∀ (fuel : Nat) (uf : UF) (x r : Nat) (uf' : UF),
      findFuel fuel uf x = some (r, uf') → assocLookup uf' r = some r
  | 0, _, _, _, _, h => by simp [findFuel] at h
  | fuel + 1, uf, x, r, uf', h => by
    rw [findFuel] at h
    cases hl : assocLookup uf x with
    | none =>
      rw [hl] at h
      obtain ⟨hr, hu⟩ := by
        have := h
        simp at this
        exact this
      subst hr; subst hu
      exact assocLookup_insert_self uf x x
    | some y =>
      rw [hl] at h
      by_cases hyx : y = x
      · simp [hyx] at h
        obtain ⟨hr, hu⟩ := h
        subst hr; subst hu
        simpa [hyx] using hl
      · simp [hyx] at h
        cases hrec : findFuel fuel uf y with
        | none => rw [hrec] at h; simp at h
        | some p =>
          obtain ⟨r0, uf1⟩ := p
          rw [hrec] at h
          simp at h
          obtain ⟨hr, hu⟩ := h
          subst hr; subst hu
          have ih := findFuel_root_fixed fuel uf y r0 uf1 hrec
          by_cases hxr : x = r0
          · rw [hxr]; exact assocLookup_insert_self uf1 r0 r0
          · rw [assocLookup_insert_ne uf1 x r0 r0 (fun hh => hxr hh.symm)]
            exact ih

/-- C8.  Canonical idempotence of find: whenever a call of UnionFind.find
returns a root r (with the compressed map uf'), r is a fixed point: a
second call of find on r — with the fuel the graph operations use —
returns r at once and leaves the map unchanged, so find(find(x)) ==
find(x) in every union-find state in which find terminates, and path
compression preserves this. -/
theorem c8_find_idempotent (fuel : Nat) (uf : UF) (x r : Nat) (uf' : UF)
    (h : findFuel fuel uf x = some (r, uf')) :
    assocLookup uf' r = some r ∧ findFuel (uf'.length + 1) uf' r = some (r, uf') := by
  have hfix := findFuel_root_fixed fuel uf x r uf' h
  refine ⟨hfix, ?_⟩
  rw [findFuel, hfix]
  simp

/-- C8 witness: a concrete two-entry union-find where 1 points at 2;
find(1) returns root 2 and find(2) is again 2 with the state unchanged. -/
theorem c8_find_idempotent_witness :
    findFuel 3 [(1, 2), (2, 2)] 1 = some (2, [(1, 2), (2, 2)]) ∧
      (assocLookup [(1, 2), (2, 2)] 2 = some 2 ∧
        findFuel ([(1, 2), (2, 2)].length + 1) [(1, 2), (2, 2)] 2 =
          some (2, [(1, 2), (2, 2)])) :=
  ⟨rfl, c8_find_idempotent 3 [(1, 2), (2, 2)] 1 2 [(1, 2), (2, 2)] rfl⟩

/-! ## Claim C6: unknown identifiers -/

/-- C6 counterexample.  On the freshly initialised graph the identifier 5
was never minted by add_node or merge, yet UnionFind.find does not report
any not-found condition: it silently registers 5 as a fresh union-find root
(the map gains the entry (5, 5)) and returns it, contradicting the claim
that find reports a not-found condition for unknown identifiers. -/
theorem c6_find_lazy_registration_counterexample :
    ufFind initGraph 5 = some (5, [(5, 5)]) ∧ assocLookup initGraph.uf 5 = none :=
  ⟨rfl, rfl⟩

/-- C6 amended.  get_class on an identifier absent from the class table
returns a not-found result (None); find, by contrast, never reports
not-found: on an identifier absent from the parent map it registers the
identifier as a fresh root and returns it. -/
theorem c6_unknown_id_amended (s : EGraph) (x : Nat) :
    (assocLookup s.classes x = none → get_eclass s x = none) ∧
      (assocLookup s.uf x = none →
        findFuel (s.uf.length + 1) s.uf x = some (x, assocInsert s.uf x x)) := by
  constructor
  · intro h; exact h
  · intro h; simp [findFuel, h]

/-- C6 witness: the amended claim evaluated on the initial graph at the
never-minted identifier 5. -/
theorem c6_unknown_id_amended_witness :
    get_eclass initGraph 5 = none ∧
      findFuel (initGraph.uf.length + 1) initGraph.uf 5 =
        some (5, assocInsert initGraph.uf 5 5) :=
  ⟨(c6_unknown_id_amended initGraph 5).1 rfl, (c6_unknown_id_amended initGraph 5).2 rfl⟩

/-! ## Claim C10: rebuild fixed point -/

/-- A rebuild that returns normally always leaves an empty worklist. -/
theorem rebuildFuel_ok_empty :
    ∀ (fuel : Nat) (s : EGraph) (u : Unit) (s1 : EGraph),
      rebuildFuel fuel s = .ok u s1 → s1.worklist = []
  | 0, s, u, s1, h => by
    rw [rebuildFuel] at h
    cases hw : s.worklist with
    | nil => rw [hw] at h; simp at h; rw [← h]; exact hw
    | cons a l => rw [hw] at h; simp at h
  | fuel + 1, s, u, s1, h => by
    rw [rebuildFuel] at h
    cases hw : s.worklist with
    | nil => rw [hw] at h; simp at h; rw [← h]; exact hw
    | cons a l =>
      rw [hw] at h
      simp only at h
      cases hf : ufFind ({s with worklist := l}) a with
      | none => rw [hf] at h; simp at h
      | some p =>
        obtain ⟨eid, uf1⟩ := p
        rw [hf] at h
        simp only at h
        cases hr : repair ({s with worklist := l, uf := uf1}) eid with
        | keyError s' => rw [hr] at h; simp at h
        | timeout s' => rw [hr] at h; simp at h
        | ok v s2 =>
          rw [hr] at h
          exact rebuildFuel_ok_empty fuel s2 u s1 h

/-- C10.  Rebuild fixed point: calling rebuild() when the worklist is
already empty is a no-op returning the state unchanged, and after any
normally-completed rebuild() a second immediate rebuild() (no intervening
merge) returns its input state unchanged — classes, hashcons, union-find
and worklist are all left exactly as they were. -/
theorem c10_rebuild_fixed_point (s : EGraph) :
    (s.worklist = [] → rebuild s = .ok () s) ∧
      (∀ s1 : EGraph, rebuild s = .ok () s1 → rebuild s1 = .ok () s1) := by
  have base : ∀ t : EGraph, t.worklist = [] → rebuild t = .ok () t := by
    intro t ht
    rw [rebuild, ht]
    simp [rebuildFuel, ht]
  refine ⟨base s, fun s1 h => base s1 ?_⟩
  exact rebuildFuel_ok_empty s.worklist.length s () s1 h

/-- C10 witness: both halves of the fixed-point property evaluated on the
initial graph, whose worklist is empty. -/
theorem c10_rebuild_fixed_point_witness :
    initGraph.worklist = [] ∧ rebuild initGraph = .ok () initGraph :=
  ⟨rfl, (c10_rebuild_fixed_point initGraph).1 rfl⟩

/-! ## Claim C5: deduplication of add_node -/

/-- A normal return of the parent-update loop of add_node does not change
the hashcons, the union-find, or the id counter, and returns the minted
id. -/
theorem addParents_ok :
    ∀ (l : List Nat) (ret : Nat) (orig : E_NODE) (s : EGraph) (i : Nat) (s' : EGraph),
      addParents ret orig s l = .ok i s' →
      i = ret ∧ s'.hashcons = s.hashcons ∧ s'.uf = s.uf ∧ s'.next_id = s.next_id
  | [], ret, orig, s, i, s', h => by
    rw [addParents] at h
    simp at h
    exact ⟨h.1.symm, by rw [← h.2], by rw [← h.2], by rw [← h.2]⟩
  | c :: rest, ret, orig, s, i, s', h => by
    rw [addParents] at h
    cases hcl : assocLookup s.classes c with
    | none => rw [hcl] at h; simp at h
    | some cl =>
      rw [hcl] at h
      simp only at h
      have ih := addParents_ok rest ret orig _ i s' h
      exact ⟨ih.1, ih.2.1, ih.2.2.1, ih.2.2.2⟩

/-- After a successful add_node, the canonical form of the added node is
interned in the hashcons and maps to the returned identifier (whether the
call hit the hashcons or minted a fresh class). -/
theorem add_node_hashcons (s : EGraph) (n : E_NODE) (id1 : Nat) (s1 : EGraph)
    (c : E_NODE) (u : UF)
    (h1 : add_node s n = .ok id1 s1) (h2 : canonicalize s n = some (c, u)) :
    assocLookup s1.hashcons c = some id1 := by
  rw [add_node, h2] at h1
  simp only at h1
  cases hhit : assocLookup s.hashcons c with
  | some j =>
    rw [show assocLookup ({s with uf := u} : EGraph).hashcons c = some j from hhit] at h1
    simp at h1
    rw [← h1.2]
    simpa using hhit.trans (congrArg some h1.1)
  | none =>
    rw [show assocLookup ({s with uf := u} : EGraph).hashcons c = none from hhit] at h1
    simp only at h1
    have := addParents_ok c.children _ n _ id1 s1 h1
    obtain ⟨hid, hhc, _, _⟩ := this
    rw [hhc]
    simp only
    rw [hid]
    exact assocLookup_insert_self _ c _

/-- C5.  Dedup / determinism of add: if add_node(n1) returned id1 and n2
canonicalizes (in the state after that call) to the same node as n1 did (at
its own call), then add_node(n2) returns the same identifier id1 and
changes nothing but the union-find side effects of canonicalization — in
particular the class table is untouched, so no second class is created.
The statement is symmetric in n1 and n2, covering both orders of
addition. -/
theorem c5_add_dedup (s : EGraph) (n1 n2 : E_NODE) (id1 : Nat) (s1 : EGraph)
    (c : E_NODE) (u u' : UF)
    (h1 : add_node s n1 = .ok id1 s1)
    (h2 : canonicalize s n1 = some (c, u))
    (h3 : canonicalize s1 n2 = some (c, u')) :
    add_node s1 n2 = .ok id1 {s1 with uf := u'} ∧
      ({s1 with uf := u'} : EGraph).classes = s1.classes := by
  have hl := add_node_hashcons s n1 id1 s1 c u h1 h2
  refine ⟨?_, rfl⟩
  rw [add_node, h3]
  simp only
  rw [show assocLookup ({s1 with uf := u'} : EGraph).hashcons c = some id1 from hl]

/-- The state produced by adding the leaf node a to the initial graph. -/
def c5state : EGraph :=
  ⟨[(1, ⟨1, [eS "a" []], []⟩)], [(1, 1)], [(eS "a" [], 1)], 1, []⟩

/-- C5 witness: adding the leaf a twice to the initial graph; the second
call returns the same id 1 and leaves the class table unchanged. -/
theorem c5_add_dedup_witness :
    add_node initGraph (eS "a" []) = .ok 1 c5state ∧
      canonicalize initGraph (eS "a" []) = some (eS "a" [], []) ∧
      canonicalize c5state (eS "a" []) = some (eS "a" [], [(1, 1)]) ∧
      (add_node c5state (eS "a" []) = .ok 1 {c5state with uf := [(1, 1)]} ∧
        ({c5state with uf := [(1, 1)]} : EGraph).classes = c5state.classes) :=
  ⟨rfl, rfl, rfl,
    c5_add_dedup initGraph (eS "a" []) (eS "a" []) 1 c5state (eS "a" []) [] [(1, 1)]
      rfl rfl rfl⟩

/-! ## The root relation of the union-find, termination, and path
compression invariance (used by claims C3, C7, C9) -/

/-- Denotation of UnionFind.find as a relation: x reaches the root r by
following parent links; an identifier absent from the map is its own root
(matching the lazy registration of find). -/
inductive RootOf (uf : UF) : Nat → Nat → Prop where
  | root_absent {x : Nat} : assocLookup uf x = none → RootOf uf x x
  | root_self {x : Nat} : assocLookup uf x = some x → RootOf uf x x
  | root_step {x y r : Nat} : assocLookup uf x = some y → x ≠ y → RootOf uf y r →
      RootOf uf x r

/-- A union-find state on which every find call terminates (no cycle among
parent links); this holds in every state the graph operations can reach. -/
def Terminates (uf : UF) : Prop := ∀ x : Nat, ∃ r : Nat, RootOf uf x r

/-- The root reached from x is unique. -/
theorem rootOf_functional {uf : UF} {x r : Nat} (h1 : RootOf uf x r) :
    ∀ {r' : Nat}, RootOf uf x r' → r = r' := by
  induction h1 with
  | root_absent hl =>
    intro r' h2
    cases h2 with
    | root_absent _ => rfl
    | root_self _ => rfl
    | root_step hl2 hne hsub => rw [hl] at hl2; cases hl2
  | root_self hl =>
    intro r' h2
    cases h2 with
    | root_absent _ => rfl
    | root_self _ => rfl
    | root_step hl2 hne hsub =>
      rw [hl] at hl2
      injection hl2 with hh
      exact absurd hh hne
  | root_step hl hne hsub ih =>
    intro r' h2
    cases h2 with
    | root_absent hl2 => rw [hl] at hl2; cases hl2
    | root_self hl2 =>
      rw [hl] at hl2
      injection hl2 with hh
      exact absurd hh.symm hne
    | root_step hl2 hne2 hsub2 =>
      rw [hl] at hl2
      injection hl2 with hh
      rw [← hh] at hsub2
      exact ih hsub2

/-- The root of any derivation is itself a root (absent or self-parented). -/
theorem rootOf_base {uf : UF} {x r : Nat} (h : RootOf uf x r) :
    assocLookup uf r = none ∨ assocLookup uf r = some r := by
  induction h with
  | root_absent hl => exact .inl hl
  | root_self hl => exact .inr hl
  | root_step _ _ _ ih => exact ih

/-- A root reaches itself. -/
theorem rootOf_self_of_base {uf : UF} {r : Nat}
    (h : assocLookup uf r = none ∨ assocLookup uf r = some r) : RootOf uf r r :=
  h.elim RootOf.root_absent RootOf.root_self

/-- The concrete path of parent links followed from x to its root. -/
inductive ChainP (uf : UF) : Nat → List Nat → Prop where
  | done {x : Nat} : (assocLookup uf x = none ∨ assocLookup uf x = some x) → ChainP uf x []
  | more {x y : Nat} {l : List Nat} : assocLookup uf x = some y → x ≠ y → ChainP uf y l →
      ChainP uf x (x :: l)

theorem rootOf_chain {uf : UF} {x r : Nat} (h : RootOf uf x r) : ∃ l, ChainP uf x l := by
  induction h with
  | root_absent hl => exact ⟨[], .done (.inl hl)⟩
  | root_self hl => exact ⟨[], .done (.inr hl)⟩
  | root_step hl hne _ ih =>
    obtain ⟨l, hc⟩ := ih
    exact ⟨_, ChainP.more hl hne hc⟩

/-- The followed path is determined by the map. -/
theorem chain_det {uf : UF} {x : Nat} {l1 : List Nat} (h1 : ChainP uf x l1) :
    ∀ {l2 : List Nat}, ChainP uf x l2 → l1 = l2 := by
  induction h1 with
  | done hb =>
    intro l2 h2
    cases h2 with
    | done _ => rfl
    | more hl2 hne2 hsub2 =>
      cases hb with
      | inl h => rw [h] at hl2; cases hl2
      | inr h => rw [h] at hl2; injection hl2 with hh; exact absurd hh hne2
  | more hl hne hsub ih =>
    intro l2 h2
    cases h2 with
    | done hb =>
      cases hb with
      | inl h => rw [h] at hl; cases hl
      | inr h => rw [h] at hl; injection hl with hh; exact absurd hh hne
    | more hl2 hne2 hsub2 =>
      rw [hl] at hl2
      injection hl2 with hh
      rw [← hh] at hsub2
      rw [ih hsub2]

/-- Every member of a path carries its own (no shorter) chain. -/
theorem chain_suffix {uf : UF} {a : Nat} {l : List Nat} (h : ChainP uf a l) :
    ∀ {x : Nat}, x ∈ l → ∃ m, ChainP uf x m ∧ m.length ≤ l.length := by
  induction h with
  | done _ => intro x hx; cases hx
  | more hl hne hsub ih =>
    intro x hx
    cases hx with
    | head => exact ⟨_, ChainP.more hl hne hsub, le_refl _⟩
    | tail _ hmem =>
      obtain ⟨m, hm, hlen⟩ := ih hmem
      exact ⟨m, hm, hlen.trans (Nat.le_succ _)⟩

/-- A chain never revisits a node. -/
theorem chain_nodup {uf : UF} {x : Nat} {l : List Nat} (h : ChainP uf x l) : l.Nodup := by
  induction h with
  | done _ => exact List.nodup_nil
  | more hl hne hsub ih =>
    refine List.nodup_cons.mpr ⟨?_, ih⟩
    intro hmem
    obtain ⟨m, hm, hlen⟩ := chain_suffix hsub hmem
    have hdet := chain_det (ChainP.more hl hne hsub) hm
    rw [← hdet] at hlen
    simp at hlen

theorem assocLookup_some_mem {α β : Type} [DecidableEq α] :
    ∀ (m : List (α × β)) (y : α) (v : β), assocLookup m y = some v → y ∈ m.map Prod.fst
  | [], y, v, h => by simp [assocLookup] at h
  | (k, w) :: rest, y, v, h => by
    by_cases hk : k = y
    · simp [hk]
    · simp only [assocLookup, if_neg hk] at h
      simp only [List.map, List.mem_cons]
      exact .inr (assocLookup_some_mem rest y v h)

/-- Every non-final node of a chain is a key of the map. -/
theorem chain_mem_keys {uf : UF} {x : Nat} {l : List Nat} (h : ChainP uf x l) :
    ∀ y ∈ l, y ∈ uf.map Prod.fst := by
  induction h with
  | done _ => intro y hy; cases hy
  | more hl hne hsub ih =>
    intro y hy
    cases hy with
    | head => exact assocLookup_some_mem uf _ _ hl
    | tail _ hmem => exact ih y hmem

/-- A chain is no longer than the number of map entries. -/
theorem chain_length_le {uf : UF} {x : Nat} {l : List Nat} (h : ChainP uf x l) :
    l.length ≤ uf.length := by
  have hnd := chain_nodup h
  have hsub : l ⊆ uf.map Prod.fst := fun y hy => chain_mem_keys h y hy
  calc l.length ≤ (uf.map Prod.fst).length := (hnd.subperm hsub).length_le
    _ = uf.length := List.length_map _ _

/-- Fuel larger than the chain length suffices for find to succeed. -/
theorem chain_findFuel {uf : UF} {x : Nat} {l : List Nat} (h : ChainP uf x l) :
    ∀ fuel : Nat, l.length < fuel → ∃ r uf', findFuel fuel uf x = some (r, uf') := by
  induction h with
  | @done z hb =>
    intro fuel hf
    obtain ⟨k, rfl⟩ : ∃ k, fuel = k + 1 := ⟨fuel - 1, by omega⟩
    cases hb with
    | inl h0 => exact ⟨z, assocInsert uf z z, by simp [findFuel, h0]⟩
    | inr h0 => exact ⟨z, uf, by simp [findFuel, h0]⟩
  | @more z y l0 hl hne hsub ih =>
    intro fuel hf
    obtain ⟨k, rfl⟩ : ∃ k, fuel = k + 1 := ⟨fuel - 1, by omega⟩
    obtain ⟨r, uf1, hrec⟩ := ih k (by simp at hf; omega)
    refine ⟨r, assocInsert uf1 z r, ?_⟩
    simp only [findFuel, hl]
    rw [if_neg (fun hh => hne hh.symm), hrec]

/-- On a terminating union-find, the graph-level find (fuel = entries + 1)
always succeeds. -/
theorem find_terminates {uf : UF} (hT : Terminates uf) (x : Nat) :
    ∃ r uf', findFuel (uf.length + 1) uf x = some (r, uf') := by
  obtain ⟨r, hr⟩ := hT x
  obtain ⟨l, hc⟩ := rootOf_chain hr
  exact chain_findFuel hc (uf.length + 1) (Nat.lt_succ_of_le (chain_length_le hc))

/-- A successful find computes exactly the RootOf relation. -/
theorem findFuel_rootOf :
    ∀ (fuel : Nat) (uf : UF) (x r : Nat) (uf' : UF),
      findFuel fuel uf x = some (r, uf') → RootOf uf x r
  | 0, uf, x, r, uf', h => by simp [findFuel] at h
  | fuel + 1, uf, x, r, uf', h => by
    rw [findFuel] at h
    cases hl : assocLookup uf x with
    | none =>
      rw [hl] at h
      simp at h
      rw [← h.1]
      exact .root_absent hl
    | some y =>
      rw [hl] at h
      simp only at h
      by_cases hyx : y = x
      · rw [if_pos hyx] at h
        simp at h
        rw [← h.1]
        exact .root_self (hyx ▸ hl)
      · rw [if_neg hyx] at h
        cases hrec : findFuel fuel uf y with
        | none => rw [hrec] at h; simp at h
        | some p =>
          obtain ⟨r0, uf1⟩ := p
          rw [hrec] at h
          simp at h
          rw [← h.1]
          exact .root_step hl (fun hh => hyx hh.symm) (findFuel_rootOf fuel uf y r0 uf1 hrec)

/-- Two union-find maps are equivalent when they define the same root
relation (the observable behavior of find). -/
def UFEquiv (a b : UF) : Prop := ∀ x r : Nat, RootOf a x r ↔ RootOf b x r

theorem ufEquiv_refl (a : UF) : UFEquiv a a := fun _ _ => Iff.rfl

theorem ufEquiv_trans {a b c : UF} (h1 : UFEquiv a b) (h2 : UFEquiv b c) : UFEquiv a c :=
  fun x r => (h1 x r).trans (h2 x r)

theorem terminates_equiv {a b : UF} (h : UFEquiv a b) (hT : Terminates a) : Terminates b :=
  fun x => (hT x).imp fun r hr => (h x r).mp hr

/-- Writing parent[x] := r when r is already x's root does not change any
root: forward direction. -/
theorem rootOf_insert_mp {uf : UF} {x r : Nat} (h : RootOf uf x r) :
    ∀ {y s0 : Nat}, RootOf uf y s0 → RootOf (assocInsert uf x r) y s0 := by
  intro y s0 hy
  induction hy with
  | @root_absent z hl =>
    by_cases hz : z = x
    · subst hz
      have hrx : r = z := rootOf_functional h (RootOf.root_absent hl)
      have : assocLookup (assocInsert uf z r) z = some z := by
        rw [assocLookup_insert_self, hrx]
      exact RootOf.root_self this
    · exact RootOf.root_absent (by rw [assocLookup_insert_ne uf x r z hz]; exact hl)
  | @root_self z hl =>
    by_cases hz : z = x
    · subst hz
      have hrx : r = z := rootOf_functional h (RootOf.root_self hl)
      have : assocLookup (assocInsert uf z r) z = some z := by
        rw [assocLookup_insert_self, hrx]
      exact RootOf.root_self this
    · exact RootOf.root_self (by rw [assocLookup_insert_ne uf x r z hz]; exact hl)
  | @root_step z w s hl hne hsub ih =>
    by_cases hz : z = x
    · subst hz
      have hsr : r = s := rootOf_functional h (RootOf.root_step hl hne hsub)
      rw [← hsr]
      have hxr : z ≠ r := by
        intro hh
        cases rootOf_base h with
        | inl hb => rw [← hh] at hb; rw [hb] at hl; cases hl
        | inr hb =>
          rw [← hh] at hb
          rw [hb] at hl
          injection hl with h2
          exact hne h2
      refine RootOf.root_step (assocLookup_insert_self uf z r) hxr ?_
      cases rootOf_base h with
      | inl hb =>
        exact RootOf.root_absent
          (by rw [assocLookup_insert_ne uf z r r (fun hh => hxr hh.symm)]; exact hb)
      | inr hb =>
        exact RootOf.root_self
          (by rw [assocLookup_insert_ne uf z r r (fun hh => hxr hh.symm)]; exact hb)
    · exact RootOf.root_step (by rw [assocLookup_insert_ne uf x r z hz]; exact hl) hne ih

/-- Writing parent[x] := r when r is already x's root does not change any
root: backward direction. -/
theorem rootOf_insert_mpr {uf : UF} {x r : Nat} (h : RootOf uf x r) :
    ∀ {y s0 : Nat}, RootOf (assocInsert uf x r) y s0 → RootOf uf y s0 := by
  intro y s0 hy
  induction hy with
  | @root_absent z hl =>
    by_cases hz : z = x
    · subst hz; rw [assocLookup_insert_self] at hl; cases hl
    · exact RootOf.root_absent (by rw [assocLookup_insert_ne uf x r z hz] at hl; exact hl)
  | @root_self z hl =>
    by_cases hz : z = x
    · subst hz
      rw [assocLookup_insert_self] at hl
      injection hl with hh
      exact hh ▸ h
    · exact RootOf.root_self (by rw [assocLookup_insert_ne uf x r z hz] at hl; exact hl)
  | @root_step z w s hl hne hsub ih =>
    by_cases hz : z = x
    · subst hz
      rw [assocLookup_insert_self] at hl
      injection hl with hh
      rw [← hh] at ih
      have hrr : RootOf uf r r := rootOf_self_of_base (rootOf_base h)
      have hsr : r = s := rootOf_functional hrr ih
      rw [← hsr]
      exact h
    · exact RootOf.root_step (by rw [assocLookup_insert_ne uf x r z hz] at hl; exact hl)
        hne ih

theorem rootOf_insert {uf : UF} {x r : Nat} (h : RootOf uf x r) :
    UFEquiv uf (assocInsert uf x r) :=
  fun _ _ => ⟨rootOf_insert_mp h, rootOf_insert_mpr h⟩

/-- Path compression (and lazy registration) performed by a successful find
leaves every root unchanged. -/
theorem findFuel_equiv :
    ∀ (fuel : Nat) (uf : UF) (x r : Nat) (uf' : UF),
      findFuel fuel uf x = some (r, uf') → UFEquiv uf uf'
  | 0, uf, x, r, uf', h => by simp [findFuel] at h
  | fuel + 1, uf, x, r, uf', h => by
    rw [findFuel] at h
    cases hl : assocLookup uf x with
    | none =>
      rw [hl] at h
      simp at h
      rw [← h.2]
      exact rootOf_insert (RootOf.root_absent hl)
    | some y =>
      rw [hl] at h
      simp only at h
      by_cases hyx : y = x
      · rw [if_pos hyx] at h
        simp at h
        rw [← h.2]
        exact ufEquiv_refl uf
      · rw [if_neg hyx] at h
        cases hrec : findFuel fuel uf y with
        | none => rw [hrec] at h; simp at h
        | some p =>
          obtain ⟨r0, uf1⟩ := p
          rw [hrec] at h
          simp at h
          obtain ⟨hr, hu⟩ := h
          rw [← hu]
          have heq1 := findFuel_equiv fuel uf y r0 uf1 hrec
          have hry : RootOf uf y r0 := findFuel_rootOf fuel uf y r0 uf1 hrec
          have hrx1 : RootOf uf1 x r0 :=
            (heq1 x r0).mp (.root_step hl (fun hh => hyx hh.symm) hry)
          exact ufEquiv_trans heq1 (rootOf_insert hrx1)

/-- A find call never disturbs a self-parented entry. -/
theorem findFuel_selfroot :
    ∀ (fuel : Nat) (uf : UF) (x r : Nat) (uf' : UF) (c : Nat),
      findFuel fuel uf x = some (r, uf') → assocLookup uf c = some c →
      assocLookup uf' c = some c
  | 0, uf, x, r, uf', c, h, hcc => by simp [findFuel] at h
  | fuel + 1, uf, x, r, uf', c, h, hcc => by
    rw [findFuel] at h
    cases hl : assocLookup uf x with
    | none =>
      rw [hl] at h
      simp at h
      rw [← h.2]
      by_cases hc : c = x
      · rw [hc] at hcc; rw [hl] at hcc; cases hcc
      · rw [assocLookup_insert_ne uf x x c hc]; exact hcc
    | some y =>
      rw [hl] at h
      simp only at h
      by_cases hyx : y = x
      · rw [if_pos hyx] at h
        simp at h
        rw [← h.2]
        exact hcc
      · rw [if_neg hyx] at h
        cases hrec : findFuel fuel uf y with
        | none => rw [hrec] at h; simp at h
        | some p =>
          obtain ⟨r0, uf1⟩ := p
          rw [hrec] at h
          simp at h
          rw [← h.2]
          have ih := findFuel_selfroot fuel uf y r0 uf1 c hrec hcc
          by_cases hc : c = x
          · rw [hc] at hcc; rw [hl] at hcc; injection hcc with h2; exact absurd h2 hyx
          · rw [assocLookup_insert_ne uf1 x r0 c hc]; exact ih

/-- A find call can register an absent identifier only as its own root. -/
theorem findFuel_none_or_self :
    ∀ (fuel : Nat) (uf : UF) (x r : Nat) (uf' : UF) (c : Nat),
      findFuel fuel uf x = some (r, uf') → assocLookup uf c = none →
      assocLookup uf' c = none ∨ assocLookup uf' c = some c
  | 0, uf, x, r, uf', c, h, hcc => by simp [findFuel] at h
  | fuel + 1, uf, x, r, uf', c, h, hcc => by
    rw [findFuel] at h
    cases hl : assocLookup uf x with
    | none =>
      rw [hl] at h
      simp at h
      rw [← h.2]
      by_cases hc : c = x
      · right; rw [assocLookup_insert, if_pos hc, hc]
      · left; rw [assocLookup_insert_ne uf x x c hc]; exact hcc
    | some y =>
      rw [hl] at h
      simp only at h
      by_cases hyx : y = x
      · rw [if_pos hyx] at h
        simp at h
        rw [← h.2]
        exact .inl hcc
      · rw [if_neg hyx] at h
        cases hrec : findFuel fuel uf y with
        | none => rw [hrec] at h; simp at h
        | some p =>
          obtain ⟨r0, uf1⟩ := p
          rw [hrec] at h
          simp at h
          rw [← h.2]
          have hcx : c ≠ x := by
            intro hc
            rw [hc] at hcc
            rw [hl] at hcc
            cases hcc
          rw [assocLookup_insert_ne uf1 x r0 c hcx]
          exact findFuel_none_or_self fuel uf y r0 uf1 c hrec hcc

/-- On a terminating union-find, canonicalization of a child list succeeds
and only compresses paths (roots unchanged). -/
theorem canonChildren_term :
    ∀ (l : List Nat) (uf : UF), Terminates uf →
      ∃ cs uf', canonChildren uf l = some (cs, uf') ∧ UFEquiv uf uf'
  | [], uf, _ => ⟨[], uf, rfl, ufEquiv_refl uf⟩
  | c :: rest, uf, hT => by
    obtain ⟨r, uf1, hf⟩ := find_terminates hT c
    have heq1 := findFuel_equiv _ _ _ _ _ hf
    have hT1 := terminates_equiv heq1 hT
    obtain ⟨cs, uf2, hcc, heq2⟩ := canonChildren_term rest uf1 hT1
    refine ⟨r :: cs, uf2, ?_, ufEquiv_trans heq1 heq2⟩
    simp only [canonChildren, hf, hcc]

/-- Canonicalization never disturbs a self-parented entry. -/
theorem canonChildren_selfroot :
    ∀ (l : List Nat) (uf : UF) (cs : List Nat) (uf' : UF) (c : Nat),
      canonChildren uf l = some (cs, uf') → assocLookup uf c = some c →
      assocLookup uf' c = some c
  | [], uf, cs, uf', c, h, hcc => by
    simp [canonChildren] at h
    rw [← h.2]
    exact hcc
  | c0 :: rest, uf, cs, uf', c, h, hcc => by
    rw [canonChildren] at h
    cases hf : findFuel (uf.length + 1) uf c0 with
    | none => rw [hf] at h; simp at h
    | some p =>
      obtain ⟨r, uf1⟩ := p
      rw [hf] at h
      simp only at h
      cases hcr : canonChildren uf1 rest with
      | none => rw [hcr] at h; simp at h
      | some q =>
        obtain ⟨rs, uf2⟩ := q
        rw [hcr] at h
        simp at h
        rw [← h.2]
        exact canonChildren_selfroot rest uf1 rs uf2 c hcr
          (findFuel_selfroot _ _ _ _ _ _ hf hcc)

/-- Canonicalization can register an absent identifier only as its own
root. -/
theorem canonChildren_none_or_self :
    ∀ (l : List Nat) (uf : UF) (cs : List Nat) (uf' : UF) (c : Nat),
      canonChildren uf l = some (cs, uf') → assocLookup uf c = none →
      assocLookup uf' c = none ∨ assocLookup uf' c = some c
  | [], uf, cs, uf', c, h, hcc => by
    simp [canonChildren] at h
    rw [← h.2]
    exact .inl hcc
  | c0 :: rest, uf, cs, uf', c, h, hcc => by
    rw [canonChildren] at h
    cases hf : findFuel (uf.length + 1) uf c0 with
    | none => rw [hf] at h; simp at h
    | some p =>
      obtain ⟨r, uf1⟩ := p
      rw [hf] at h
      simp only at h
      cases hcr : canonChildren uf1 rest with
      | none => rw [hcr] at h; simp at h
      | some q =>
        obtain ⟨rs, uf2⟩ := q
        rw [hcr] at h
        simp at h
        rw [← h.2]
        cases findFuel_none_or_self _ _ _ _ _ _ hf hcc with
        | inl h1 => exact canonChildren_none_or_self rest uf1 rs uf2 c hcr h1
        | inr h1 => exact .inr (canonChildren_selfroot rest uf1 rs uf2 c hcr h1)

/-- After canonicalizing a child list, every child that was absent from the
union-find (or already self-parented) ends up registered as its own root. -/
theorem canonChildren_reg :
    ∀ (l : List Nat) (uf : UF) (cs : List Nat) (uf' : UF) (c : Nat),
      canonChildren uf l = some (cs, uf') → c ∈ l →
      (assocLookup uf c = none ∨ assocLookup uf c = some c) →
      assocLookup uf' c = some c
  | [], _, _, _, _, _, hmem, _ => absurd hmem (List.not_mem_nil _)
  | c0 :: rest, uf, cs, uf', c, h, hmem, hpre => by
    rw [canonChildren] at h
    cases hf : findFuel (uf.length + 1) uf c0 with
    | none => rw [hf] at h; simp at h
    | some p =>
      obtain ⟨r, uf1⟩ := p
      rw [hf] at h
      simp only at h
      cases hcr : canonChildren uf1 rest with
      | none => rw [hcr] at h; simp at h
      | some q =>
        obtain ⟨rs, uf2⟩ := q
        rw [hcr] at h
        simp at h
        rw [← h.2]
        by_cases hc : c = c0
        · subst hc
          have h1 : assocLookup uf1 c = some c := by
            cases hpre with
            | inl hp =>
              rw [findFuel] at hf
              rw [hp] at hf
              simp at hf
              rw [← hf.2]
              exact assocLookup_insert_self uf c c
            | inr hp =>
              rw [findFuel] at hf
              rw [hp] at hf
              simp at hf
              rw [← hf.2]
              exact hp
          exact canonChildren_selfroot rest uf1 rs uf2 c hcr h1
        · have hmem' : c ∈ rest := by
            cases hmem with
            | head => exact absurd rfl hc
            | tail _ hm => exact hm
          have hpre1 : assocLookup uf1 c = none ∨ assocLookup uf1 c = some c := by
            cases hpre with
            | inl hp => exact findFuel_none_or_self _ _ _ _ _ _ hf hp
            | inr hp => exact .inr (findFuel_selfroot _ _ _ _ _ _ hf hp)
          exact canonChildren_reg rest uf1 rs uf2 c hcr hmem' hpre1

/-! ## Claim C3: repair raises KeyError on any non-empty parent set -/

/-- The first pass of repair, run on a terminating union-find, either
raises a KeyError or returns normally with a still-terminating
union-find. -/
theorem repairPass1_cases :
    ∀ (l : List E_NODE) (s : EGraph), Terminates s.uf →
      (repairPass1 s l).isKeyError = true ∨
        ∃ s1, repairPass1 s l = .ok () s1 ∧ Terminates s1.uf
  | [], s, hT => .inr ⟨s, rfl, hT⟩
  | enode :: rest, s, hT => by
    obtain ⟨cs, uf1, hcc, heq⟩ := canonChildren_term enode.children s.uf hT
    have hcan : canonicalize s enode = some (⟨enode.value, cs⟩, uf1) := by
      simp [canonicalize, hcc]
    rw [repairPass1, hcan]
    simp only
    cases hh : assocLookup s.hashcons enode with
    | none => exact Or.inl rfl
    | some cur =>
      have hT1 : Terminates uf1 := terminates_equiv heq hT
      obtain ⟨r, uf2, hfind⟩ := find_terminates hT1 cur
      have hfind2 :
          ufFind ({s with uf := uf1, hashcons := assocErase s.hashcons enode} : EGraph)
            cur = some (r, uf2) := hfind
      simp only
      rw [hfind2]
      have hT2 : Terminates uf2 :=
        terminates_equiv (findFuel_equiv _ _ _ _ _ hfind) hT1
      exact repairPass1_cases rest _ hT2

/-- The second pass of repair raises a KeyError on its very first
iteration: new_parents is empty, so the unconditional read
new_parents[key_original] fails. -/
theorem repairPass2_first_keyError (s : EGraph) (p : E_NODE) (rest : List E_NODE)
    (hT : Terminates s.uf) :
    (repairPass2 [] s (p :: rest)).isKeyError = true := by
  obtain ⟨cs, uf1, hcc, _⟩ := canonChildren_term p.children s.uf hT
  have hcan : canonicalize s p = some (⟨p.value, cs⟩, uf1) := by
    simp [canonicalize, hcc]
  rw [repairPass2, hcan]
  rfl

/-- C3.  For every graph state whose union-find terminates (true of every
reachable state) and every class id c present in the class table: when the
stored class has a non-empty parent set, repair(c) raises a KeyError
before completing — either the first pass reads hashcons[enode] for an
un-interned parent, or the second pass unconditionally reads
new_parents[key_original] before anything was inserted into new_parents;
and repair returns normally when the parent set is empty. -/
theorem c3_repair_keyerror (s : EGraph) (c : Nat) (cl : E_CLASS)
    (hc : assocLookup s.classes c = some cl) (hT : Terminates s.uf) :
    (cl.parents ≠ [] → (repair s c).isKeyError = true) ∧
      (cl.parents = [] → ∃ s', repair s c = .ok () s') := by
  constructor
  · intro hne
    rw [repair, hc]
    simp only
    obtain ⟨p, rest, hp⟩ : ∃ p rest, cl.parents = p :: rest := by
      cases hpp : cl.parents with
      | nil => exact absurd hpp hne
      | cons a l => exact ⟨a, l, rfl⟩
    rw [hp]
    rcases repairPass1_cases (p :: rest) s hT with hk | ⟨s1, hok, hT1⟩
    · cases hres : repairPass1 s (p :: rest) with
      | keyError s' => rfl
      | timeout s' => rw [hres] at hk; simp [Res.isKeyError] at hk
      | ok v s' => rw [hres] at hk; simp [Res.isKeyError] at hk
    · rw [hok]
      simp only
      have h2 := repairPass2_first_keyError s1 p rest hT1
      cases hres : repairPass2 [] s1 (p :: rest) with
      | keyError s' => rfl
      | timeout s' => rw [hres] at h2; simp [Res.isKeyError] at h2
      | ok v s' => rw [hres] at h2; simp [Res.isKeyError] at h2
  · intro hemp
    rw [repair, hc]
    simp only
    rw [hemp]
    simp only [repairPass1, repairPass2]
    rw [hc]
    exact ⟨_, rfl⟩

/-- A one-class graph whose class 1 records one parent node f(1); the
union-find is empty, so it trivially terminates. -/
def c3graph : EGraph :=
  ⟨[(1, ⟨1, [], [eS "f" [1]]⟩)], [], [], 1, []⟩

theorem terminates_nil : Terminates ([] : UF) :=
  fun x => ⟨x, .root_absent rfl⟩

/-- C3 witness: repair on the concrete class with the non-empty parent set
raises a KeyError. -/
theorem c3_repair_keyerror_witness :
    assocLookup c3graph.classes 1 = some ⟨1, [], [eS "f" [1]]⟩ ∧
      (⟨1, [], [eS "f" [1]]⟩ : E_CLASS).parents ≠ [] ∧
      (repair c3graph 1).isKeyError = true :=
  ⟨rfl, by decide,
    (c3_repair_keyerror c3graph 1 ⟨1, [], [eS "f" [1]]⟩ rfl terminates_nil).1 (by decide)⟩

/-! ## Claim C7: add_node with an unknown child id -/

/-- First call of Scenario: adding f(7) to the empty graph, 7 never
minted. -/
def c7first : Res Nat := add_node initGraph (eS "f" [7])

/-- Second identical call, on the state the first KeyError left behind. -/
def c7second : Option (Res Nat) :=
  (c7first).errState.map fun s => add_node s (eS "f" [7])

def c7secondOkOne : Bool :=
  match c7second with
  | some (.ok 1 _) => true
  | _ => false

/-- Adding f(1) to the empty graph: the child id 1 was never minted, but it
happens to equal the id the call itself mints. -/
def c7fresh : Res Nat := add_node initGraph (eS "f" [1])

def c7freshOkOne : Bool :=
  match c7fresh with
  | .ok 1 _ => true
  | _ => false

/-- C7 counterexample.  Two calls whose children include a never-minted id
return normally instead of raising, refuting the claim's "every call":
(a) the first add_node(f(7)) raises a KeyError but has already interned
f(7) in the hashcons, so the second identical call (child 7 still never
minted) returns id 1 with no error; (b) add_node(f(1)) on the empty graph
has the never-minted child 1, but 1 is exactly the id the call mints, and
the new class is inserted into the class table before the parent-update
loop runs, so the lookup succeeds and the call returns id 1 with no
error. -/
theorem c7_second_call_no_keyerror_counterexample :
    (c7first).isKeyError = true ∧ c7secondOkOne = true ∧ c7freshOkOne = true :=
  ⟨rfl, rfl, rfl⟩

/-- When some child is missing from the class table, the parent-update loop
raises a KeyError; the state it leaves keeps the uf, hashcons and counter
it received, and every class entry survives with its node set intact. -/
theorem addParents_err :
    ∀ (l : List Nat) (ret : Nat) (orig : E_NODE) (s : EGraph),
      (∃ c, c ∈ l ∧ assocLookup s.classes c = none) →
      ∃ s', addParents ret orig s l = .keyError s' ∧
        s'.uf = s.uf ∧ s'.hashcons = s.hashcons ∧ s'.next_id = s.next_id ∧
        (∀ k cls, assocLookup s.classes k = some cls →
          ∃ cls', assocLookup s'.classes k = some cls' ∧ cls'.nodes = cls.nodes)
  | [], ret, orig, s, hex => absurd hex.choose_spec.1 (List.not_mem_nil _)
  | c0 :: rest, ret, orig, s, hex => by
    rw [addParents]
    cases hcl : assocLookup s.classes c0 with
    | none =>
      exact ⟨s, rfl, rfl, rfl, rfl, fun k cls hk => ⟨cls, hk, rfl⟩⟩
    | some cl0 =>
      simp only
      obtain ⟨c, hmem, hnone⟩ := hex
      have hc0 : c ≠ c0 := by
        intro hh
        rw [hh, hcl] at hnone
        cases hnone
      have hmem' : c ∈ rest := by
        cases hmem with
        | head => exact absurd rfl hc0
        | tail _ hm => exact hm
      have hnone' :
          assocLookup (assocInsert s.classes c0 ({cl0 with parents :=
            if orig ∈ cl0.parents then cl0.parents else cl0.parents ++ [orig]})) c = none := by
        rw [assocLookup_insert_ne _ _ _ c hc0]
        exact hnone
      obtain ⟨s', heq, hu, hh, hn, hpres⟩ :=
        addParents_err rest ret orig
          ({s with classes := assocInsert s.classes c0 ({cl0 with parents :=
            if orig ∈ cl0.parents then cl0.parents else cl0.parents ++ [orig]})})
          ⟨c, hmem', hnone'⟩
      refine ⟨s', heq, hu, hh, hn, ?_⟩
      intro k cls hk
      by_cases hkc : k = c0
      · subst hkc
        rw [hcl] at hk
        injection hk with hk2
        obtain ⟨cls', hl', hn'⟩ := hpres k _ (assocLookup_insert_self s.classes k _)
        refine ⟨cls', hl', ?_⟩
        rw [hn', ← hk2]
      · obtain ⟨cls', hl', hn'⟩ :=
          hpres k cls (by rw [assocLookup_insert_ne _ _ _ k hkc]; exact hk)
        exact ⟨cls', hl', hn'⟩

/-- C7 amended.  If the canonicalized node is not already interned, and
some child missing from the class table differs from the id the call
itself mints (next_id + 1) — the two provisos the counterexample forces —
then add_node raises a KeyError while updating that child's parent set,
and the failure is not atomic: the error state already has the
incremented counter, the fresh id registered as union-find root, the new
class in the class table, the canonical node interned in the hashcons,
and (via canonicalize) every previously-unseen child registered as a
union-find root. -/
theorem c7_add_unknown_child_amended (s : EGraph) (n cn : E_NODE) (u1 : UF)
    (hc : canonicalize s n = some (cn, u1))
    (hmiss : assocLookup s.hashcons cn = none)
    (hbad : ∃ c, c ∈ cn.children ∧ assocLookup s.classes c = none ∧ c ≠ s.next_id + 1) :
    ∃ s', add_node s n = .keyError s' ∧
      s'.next_id = s.next_id + 1 ∧
      assocLookup s'.uf (s.next_id + 1) = some (s.next_id + 1) ∧
      (∃ cls, assocLookup s'.classes (s.next_id + 1) = some cls ∧ cls.nodes = [cn]) ∧
      assocLookup s'.hashcons cn = some (s.next_id + 1) ∧
      (∀ c, c ∈ n.children → assocLookup s.uf c = none → assocLookup s'.uf c = some c) := by
  cases hcc : canonChildren s.uf n.children with
  | none => rw [canonicalize, hcc] at hc; cases hc
  | some p =>
    obtain ⟨cs, uf0⟩ := p
    rw [canonicalize, hcc] at hc
    simp at hc
    obtain ⟨hcn, huf0⟩ := hc
    subst huf0
    subst hcn
    have hcan : canonicalize s n = some (⟨n.value, cs⟩, uf0) := by
      simp [canonicalize, hcc]
    rw [add_node, hcan]
    simp only
    rw [hmiss]
    simp only
    obtain ⟨c, hmem, hnone, hne⟩ := hbad
    have hs3 :
        assocLookup (assocInsert s.classes (s.next_id + 1)
          ⟨s.next_id + 1, [⟨n.value, cs⟩], []⟩) c = none := by
      rw [assocLookup_insert_ne _ _ _ c hne]
      exact hnone
    obtain ⟨s', heq, hu, hh, hn, hpres⟩ :=
      addParents_err (E_NODE.children ⟨n.value, cs⟩) (s.next_id + 1) n
        ({s with
          next_id := s.next_id + 1,
          uf := assocInsert uf0 (s.next_id + 1) (s.next_id + 1),
          classes := assocInsert s.classes (s.next_id + 1)
            ⟨s.next_id + 1, [⟨n.value, cs⟩], []⟩,
          hashcons := assocInsert s.hashcons ⟨n.value, cs⟩ (s.next_id + 1)})
        ⟨c, hmem, hs3⟩
    refine ⟨s', heq, ?_, ?_, ?_, ?_, ?_⟩
    · rw [hn]
    · rw [hu]
      exact assocLookup_insert_self uf0 _ _
    · obtain ⟨cls', hl', hn'⟩ :=
        hpres (s.next_id + 1) ⟨s.next_id + 1, [⟨n.value, cs⟩], []⟩
          (assocLookup_insert_self s.classes _ _)
      exact ⟨cls', hl', hn'⟩
    · rw [hh]
      exact assocLookup_insert_self s.hashcons _ _
    · intro c2 hmem2 hnone2
      rw [hu]
      have hreg : assocLookup uf0 c2 = some c2 :=
        canonChildren_reg n.children s.uf cs uf0 c2 hcc hmem2 (.inl hnone2)
      by_cases hc2 : c2 = s.next_id + 1
      · rw [hc2, assocLookup_insert_self]
      · rw [assocLookup_insert_ne uf0 _ _ c2 hc2]
        exact hreg

/-- C7 witness: adding f(7) to the empty graph with the hashcons miss and
the missing child 7 yields a KeyError whose state shows all the
non-atomic mutations. -/
theorem c7_add_unknown_child_amended_witness :
    canonicalize initGraph (eS "f" [7]) = some (eS "f" [7], [(7, 7)]) ∧
      assocLookup initGraph.hashcons (eS "f" [7]) = none ∧
      (7 ∈ (eS "f" [7]).children ∧ assocLookup initGraph.classes 7 = none ∧
        7 ≠ initGraph.next_id + 1) ∧
      (∃ s', add_node initGraph (eS "f" [7]) = .keyError s' ∧
        s'.next_id = initGraph.next_id + 1 ∧
        assocLookup s'.uf (initGraph.next_id + 1) = some (initGraph.next_id + 1) ∧
        (∃ cls, assocLookup s'.classes (initGraph.next_id + 1) = some cls ∧
          cls.nodes = [eS "f" [7]]) ∧
        assocLookup s'.hashcons (eS "f" [7]) = some (initGraph.next_id + 1) ∧
        (∀ c, c ∈ (eS "f" [7]).children → assocLookup initGraph.uf c = none →
          assocLookup s'.uf c = some c)) :=
  ⟨rfl, rfl, ⟨by decide, rfl, by decide⟩,
    c7_add_unknown_child_amended initGraph (eS "f" [7]) (eS "f" [7]) [(7, 7)] rfl rfl
      ⟨7, by decide, rfl, by decide⟩⟩

/-! ## Claim C9: merge reflexivity / idempotence -/

/-- Linking root br under root ar (the write of UnionFind.union) redirects
exactly the identifiers rooted at br to ar and leaves all other roots
unchanged. -/
theorem union_rootOf {uf : UF} {br ar : Nat} (hbr : assocLookup uf br = some br)
    (har : assocLookup uf ar = some ar) (hne : br ≠ ar) :
    ∀ {y s0 : Nat}, RootOf uf y s0 →
      RootOf (assocInsert uf br ar) y (if s0 = br then ar else s0) := by
  intro y s0 hy
  induction hy with
  | @root_absent z hl =>
    have hz : z ≠ br := by intro hh; rw [hh, hbr] at hl; cases hl
    rw [if_neg hz]
    exact RootOf.root_absent (by rw [assocLookup_insert_ne _ _ _ z hz]; exact hl)
  | @root_self z hl =>
    by_cases hz : z = br
    · rw [if_pos hz]
      have hlz : assocLookup (assocInsert uf br ar) z = some ar := by
        rw [hz]; exact assocLookup_insert_self uf br ar
      have hzar : z ≠ ar := by rw [hz]; exact hne
      exact RootOf.root_step hlz hzar
        (RootOf.root_self
          (by rw [assocLookup_insert_ne _ _ _ ar (fun hh => hne hh.symm)]; exact har))
    · rw [if_neg hz]
      exact RootOf.root_self (by rw [assocLookup_insert_ne _ _ _ z hz]; exact hl)
  | @root_step z w s hl hzw hsub ih =>
    have hz : z ≠ br := by
      intro hh
      rw [hh, hbr] at hl
      injection hl with h2
      exact hzw (hh.trans h2)
    exact RootOf.root_step (by rw [assocLookup_insert_ne _ _ _ z hz]; exact hl) hzw ih

theorem terminates_insert_root {uf : UF} {br ar : Nat} (hbr : assocLookup uf br = some br)
    (har : assocLookup uf ar = some ar) (hne : br ≠ ar) (hT : Terminates uf) :
    Terminates (assocInsert uf br ar) :=
  fun y => (hT y).elim fun _s0 hy => ⟨_, union_rootOf hbr har hne hy⟩

/-- A merge of two already-equivalent identifiers returns normally and
changes nothing observable: classes, hashcons, worklist and counter are
untouched and every find result is preserved (only path compression
happened). -/
theorem merge_redundant (s : EGraph) (a b r : Nat) (hT : Terminates s.uf)
    (ha : RootOf s.uf a r) (hb : RootOf s.uf b r) :
    ∃ s', merge s a b = .ok () s' ∧ s'.classes = s.classes ∧ s'.hashcons = s.hashcons ∧
      s'.worklist = s.worklist ∧ s'.next_id = s.next_id ∧ UFEquiv s.uf s'.uf := by
  obtain ⟨ra, uf1, hfa⟩ := find_terminates hT a
  have hra : ra = r := rootOf_functional (findFuel_rootOf _ _ _ _ _ hfa) ha
  have heq1 : UFEquiv s.uf uf1 := findFuel_equiv _ _ _ _ _ hfa
  have hT1 : Terminates uf1 := terminates_equiv heq1 hT
  obtain ⟨rb, uf2, hfb⟩ := find_terminates hT1 b
  have hrb : rb = r := rootOf_functional (findFuel_rootOf _ _ _ _ _ hfb) ((heq1 b r).mp hb)
  have heq2 : UFEquiv uf1 uf2 := findFuel_equiv _ _ _ _ _ hfb
  rw [merge]
  rw [show ufFind s a = some (ra, uf1) from hfa]
  simp only
  rw [hfb]
  simp only
  rw [if_pos (hra.trans hrb.symm)]
  exact ⟨_, rfl, rfl, rfl, rfl, rfl, ufEquiv_trans heq1 heq2⟩

/-- After any normally-returning merge, the two merged identifiers share a
root in the resulting state, and the union-find still terminates. -/
theorem merge_after_roots (s : EGraph) (a b : Nat) (hT : Terminates s.uf) (s1 : EGraph)
    (h : merge s a b = .ok () s1) :
    ∃ r, RootOf s1.uf a r ∧ RootOf s1.uf b r ∧ Terminates s1.uf := by
  rw [merge] at h
  cases hfa : ufFind s a with
  | none => rw [hfa] at h; simp at h
  | some p =>
    obtain ⟨a_root, uf1⟩ := p
    rw [hfa] at h
    simp only at h
    cases hfb : findFuel (uf1.length + 1) uf1 b with
    | none => rw [hfb] at h; simp at h
    | some q =>
      obtain ⟨b_root, uf2⟩ := q
      rw [hfb] at h
      simp only at h
      have hra : RootOf s.uf a a_root := findFuel_rootOf _ _ _ _ _ hfa
      have heq1 : UFEquiv s.uf uf1 := findFuel_equiv _ _ _ _ _ hfa
      have hrb1 : RootOf uf1 b b_root := findFuel_rootOf _ _ _ _ _ hfb
      have heq2 : UFEquiv uf1 uf2 := findFuel_equiv _ _ _ _ _ hfb
      have hT2 : Terminates uf2 := terminates_equiv (ufEquiv_trans heq1 heq2) hT
      have hra2 : RootOf uf2 a a_root := (heq2 a a_root).mp ((heq1 a a_root).mp hra)
      have hrb2 : RootOf uf2 b b_root := (heq2 b b_root).mp hrb1
      by_cases hroots : a_root = b_root
      · rw [if_pos hroots] at h
        injection h with hv hs
        subst hs
        rw [← hroots] at hrb2
        exact ⟨a_root, hra2, hrb2, hT2⟩
      · rw [if_neg hroots] at h
        have hfix_a1 : assocLookup uf1 a_root = some a_root :=
          findFuel_root_fixed _ _ _ _ _ hfa
        have hfix_a2 : assocLookup uf2 a_root = some a_root :=
          findFuel_selfroot _ _ _ _ _ _ hfb hfix_a1
        have hfix_b2 : assocLookup uf2 b_root = some b_root :=
          findFuel_root_fixed _ _ _ _ _ hfb
        have hne_ba : b_root ≠ a_root := fun hh => hroots hh.symm
        have hu : unionUF uf2 a_root b_root = some (assocInsert uf2 b_root a_root) := by
          rw [unionUF]
          rw [show findFuel (uf2.length + 1) uf2 a_root = some (a_root, uf2) from by
            rw [findFuel, hfix_a2]; simp]
          simp only
          rw [show findFuel (uf2.length + 1) uf2 b_root = some (b_root, uf2) from by
            rw [findFuel, hfix_b2]; simp]
          simp only
          rw [if_neg hroots]
        rw [hu] at h
        simp only at h
        have hfix_a3 : assocLookup (assocInsert uf2 b_root a_root) a_root = some a_root := by
          rw [assocLookup_insert_ne _ _ _ a_root hroots]
          exact hfix_a2
        rw [show findFuel ((assocInsert uf2 b_root a_root).length + 1)
            (assocInsert uf2 b_root a_root) a_root =
            some (a_root, assocInsert uf2 b_root a_root) from by
          rw [findFuel, hfix_a3]; simp] at h
        simp only at h
        cases hca : assocLookup s.classes a_root with
        | none => rw [hca] at h; simp at h
        | some clA =>
          rw [hca] at h
          simp only at h
          cases hcb : assocLookup s.classes b_root with
          | none => rw [hcb] at h; simp at h
          | some clB =>
            rw [hcb] at h
            simp only at h
            injection h with hv hs
            subst hs
            have hu3a : RootOf (assocInsert uf2 b_root a_root) a a_root := by
              have hh := union_rootOf hfix_b2 hfix_a2 hne_ba hra2
              rw [if_neg hroots] at hh
              exact hh
            have hu3b : RootOf (assocInsert uf2 b_root a_root) b a_root := by
              have hh := union_rootOf hfix_b2 hfix_a2 hne_ba hrb2
              rw [if_pos rfl] at hh
              exact hh
            exact ⟨a_root, hu3a, hu3b,
              terminates_insert_root hfix_b2 hfix_a2 hne_ba hT2⟩

/-- C9.  Merge reflexivity / idempotence: (i) whenever a and b already have
the same root (in particular merge(x, x)), merge(a, b) returns normally —
a redundant merge is never an error — and leaves classes, hashcons,
worklist, next_id and every find result unchanged; (ii) after any
normally-returning merge(a, b), repeating merge(a, b) changes nothing
further in the same sense. -/
theorem c9_merge_idempotent (s : EGraph) (a b : Nat) (hT : Terminates s.uf) :
    (∀ r, RootOf s.uf a r → RootOf s.uf b r →
      ∃ s', merge s a b = .ok () s' ∧ s'.classes = s.classes ∧ s'.hashcons = s.hashcons ∧
        s'.worklist = s.worklist ∧ s'.next_id = s.next_id ∧ UFEquiv s.uf s'.uf) ∧
    (∀ s1, merge s a b = .ok () s1 →
      ∃ s2, merge s1 a b = .ok () s2 ∧ s2.classes = s1.classes ∧ s2.hashcons = s1.hashcons ∧
        s2.worklist = s1.worklist ∧ s2.next_id = s1.next_id ∧ UFEquiv s1.uf s2.uf) := by
  constructor
  · intro r ha hb
    exact merge_redundant s a b r hT ha hb
  · intro s1 h
    obtain ⟨r, ha, hb, hT1⟩ := merge_after_roots s a b hT s1 h
    exact merge_redundant s1 a b r hT1 ha hb

/-- The one-class graph used to instantiate C9. -/
def c9graph : EGraph :=
  ⟨[(1, ⟨1, [eS "a" []], []⟩)], [(1, 1)], [(eS "a" [], 1)], 1, []⟩

theorem terminates_c9 : Terminates c9graph.uf := by
  intro x
  by_cases h : (1 : Nat) = x
  · subst h
    exact ⟨1, RootOf.root_self rfl⟩
  · exact ⟨x, RootOf.root_absent (by simp [assocLookup, h])⟩

/-- C9 witness: merge(1, 1) on the concrete one-class graph is a no-op. -/
theorem c9_merge_idempotent_witness :
    Terminates c9graph.uf ∧ RootOf c9graph.uf 1 1 ∧
      (∃ s', merge c9graph 1 1 = .ok () s' ∧ s'.classes = c9graph.classes ∧
        s'.hashcons = c9graph.hashcons ∧ s'.worklist = c9graph.worklist ∧
        s'.next_id = c9graph.next_id ∧ UFEquiv c9graph.uf s'.uf) :=
  ⟨terminates_c9, RootOf.root_self rfl,
    (c9_merge_idempotent c9graph 1 1 terminates_c9).1 1 (RootOf.root_self rfl)
      (RootOf.root_self rfl)⟩
